import Mathlib

/-!
# Verification of the chip8emu interpreter core

A shallow embedding of the repository's `Chip8` class (src/src/chip8.cpp and
the class definition appended to it) together with the host-loop glue from
src/main.cpp.  Machine integers are modelled as `Nat` with explicit
`% 2^w` reductions exactly where the C++ unsigned types wrap; `uint8_t`
register/ram cells are `Nat` values kept below 256 by every write, and
theorems that need the invariant state it as a hypothesis.  C++ behaviour
with no defined result (`std::unreachable()`, `stack.top()` on an empty
stack, a failed `assert`) is embedded as `Option.none` / an `Option`-valued
operation.
-/

namespace Chip8Emu

/-- `RAM_SIZE` constant of the source: 4096 bytes of memory. -/
def RAM_SIZE : Nat := 4096

/-- `MAX_PROG_SIZE` constant of the source: `4096 - 0x200`. -/
def MAX_PROG_SIZE : Nat := 4096 - 0x200

/-- `PC_RESET_VALUE` constant of the source: `0x200`. -/
def PC_RESET_VALUE : Nat := 0x200

/-- `FONT_START_ADDR` constant of the source: the system font is stored at
ram[0]. -/
def FONT_START_ADDR : Nat := 0

/-- `SCREEN_SIZE` constant of the source: 64 * 32 pixels, row major. -/
def SCREEN_SIZE : Nat := 64 * 32

/-- Pointwise update of a function, used for writes to `ram`, `V` and
`screen` (C++ `a[i] = v`). -/
def upd {α : Type} (f : Nat → α) (i : Nat) (v : α) : Nat → α :=
  fun j => if j = i then v else f j

/-- Bit `k` of `b`, used for `std::bitset<8>::test` on a sprite row. -/
def testBit (b k : Nat) : Bool := (b >>> k) &&& 1 == 1

/-- The decoded fields of an instruction word, mirroring `struct
instruction_t` of the source (`X`, `Y`, `N`, `NN`, `NNN` bit fields). -/
structure instruction_t where
  X : Nat
  Y : Nat
  N : Nat
  NN : Nat
  NNN : Nat
  deriving Repr, DecidableEq

/-- The `instruction_t(uint16_t n)` constructor of the source: pure
shift-and-mask extraction of the five fields. -/
def decode (n : Nat) : instruction_t :=
  { X := (n >>> 8) &&& 0xF
    Y := (n >>> 4) &&& 0xF
    N := n &&& 0xF
    NN := n &&& 0xFF
    NNN := n &&& 0xFFF }

/-- The machine state: the fields of the `Chip8` class.  `ram`, `V`,
`screen` and `keyboard` are functions from the index type of the C++ array
or bitset; the three quirk configuration booleans default to `false` as in
the source. -/
structure Chip8 where
  copy_vy_to_vx_in_shift : Bool := false
  make_BNNN_into_BXNN : Bool := false
  FX55_FX65_modify_I : Bool := false
  ram : Nat → Nat
  PC : Nat
  I : Nat
  V : Nat → Nat
  stack : List Nat
  delay_timer : Nat
  sound_timer : Nat
  screen : Nat → Bool
  keyboard : Nat → Bool

/-- The 80 font bytes the source places at the start of `ram` via the
aggregate initializer of `std::array<uint8_t, RAM_SIZE> ram{...}`. -/
def fontData : List Nat :=
  [0xF0, 0x90, 0x90, 0x90, 0xF0,
   0x20, 0x60, 0x20, 0x20, 0x70,
   0xF0, 0x10, 0xF0, 0x80, 0xF0,
   0xF0, 0x10, 0xF0, 0x10, 0xF0,
   0x90, 0x90, 0xF0, 0x10, 0x10,
   0xF0, 0x80, 0xF0, 0x10, 0xF0,
   0xF0, 0x80, 0xF0, 0x90, 0xF0,
   0xF0, 0x10, 0x20, 0x40, 0x40,
   0xF0, 0x90, 0xF0, 0x90, 0xF0,
   0xF0, 0x90, 0xF0, 0x10, 0xF0,
   0xF0, 0x90, 0xF0, 0x90, 0x90,
   0xE0, 0x90, 0xE0, 0x90, 0xE0,
   0xF0, 0x80, 0x80, 0x80, 0xF0,
   0xE0, 0x90, 0x90, 0x90, 0xE0,
   0xF0, 0x80, 0xF0, 0x80, 0xF0,
   0xF0, 0x80, 0xF0, 0x80, 0x80]

/-- Memory as the constructor leaves it: the 80 font bytes, then zeroes
(a C++ aggregate initializer value-initializes the remaining elements). -/
def initRam : Nat → Nat :=
  fun a => if a < 80 then fontData.getD a 0 else 0

/-- A freshly constructed machine.  `PC = PC_RESET_VALUE`, timers 0,
screen and keyboard clear.  The C++ class leaves `I` and `V`
uninitialized; this model picks the concrete instance with both zero,
which theorems use only as an arbitrary well-formed state. -/
def initState : Chip8 :=
  { ram := initRam
    PC := PC_RESET_VALUE
    I := 0
    V := fun _ => 0
    stack := []
    delay_timer := 0
    sound_timer := 0
    screen := fun _ => false
    keyboard := fun _ => false }

/-- Writes the bytes of `prog` to consecutive addresses starting at `a`:
the `std::memcpy(&ram[PC_RESET_VALUE], prog.data(), prog.size())` of
`Chip8::load`. -/
def loadBytes (a : Nat) (prog : List Nat) (ram : Nat → Nat) : Nat → Nat :=
  match prog with
  | [] => ram
  | b :: rest => loadBytes (a + 1) rest (upd ram a b)

/-- `Chip8::load`: `assert(prog.size() < MAX_PROG_SIZE)` then the memcpy.
`none` models the failed assertion (the precondition violation). -/
def load (prog : List Nat) (s : Chip8) : Option Chip8 :=
  if prog.length < MAX_PROG_SIZE then
    some { s with ram := loadBytes PC_RESET_VALUE prog s.ram }
  else none

/-- `Chip8::decrement_delay_timer`: `--delay_timer` on a `uint8_t`, i.e.
subtraction of 1 modulo 256 (0 wraps to 255). -/
def decrement_delay_timer (s : Chip8) : Chip8 :=
  { s with delay_timer := (s.delay_timer + 255) % 256 }

/-- `Chip8::decrement_sound_timer`: `--sound_timer` on a `uint8_t`. -/
def decrement_sound_timer (s : Chip8) : Chip8 :=
  { s with sound_timer := (s.sound_timer + 255) % 256 }

/-- The host loop's delay-timer tick (src/main.cpp): the decrement is
invoked only when the timer is positive. -/
def host_tick_delay (s : Chip8) : Chip8 :=
  if s.delay_timer > 0 then decrement_delay_timer s else s

/-- The host loop's sound-timer tick (src/main.cpp): guarded the same
way. -/
def host_tick_sound (s : Chip8) : Chip8 :=
  if s.sound_timer > 0 then decrement_sound_timer s else s

/-- `Chip8::handle_0_instr`.  `none` models the two paths with no defined
C++ behaviour: `stack.top()`/`stack.pop()` on an empty `std::stack`, and
the `default:` branch's `std::unreachable()`. -/
def handle_0_instr (instr : instruction_t) (s : Chip8) : Option Chip8 :=
  match instr.NNN with
  | 0x0E0 => some { s with screen := fun _ => false }
  | 0x0EE =>
    match s.stack with
    | [] => none
    | a :: rest => some { s with PC := a, stack := rest }
  | _ => none

/-- `Chip8::handle_1_instr`: `PC = instr.NNN`. -/
def handle_1_instr (instr : instruction_t) (s : Chip8) : Chip8 :=
  { s with PC := instr.NNN }

/-- `Chip8::handle_2_instr`: push PC, `PC = instr.NNN`. -/
def handle_2_instr (instr : instruction_t) (s : Chip8) : Chip8 :=
  { s with stack := s.PC :: s.stack, PC := instr.NNN }

/-- `Chip8::handle_3_instr`: skip if `V[X] == NN`. -/
def handle_3_instr (instr : instruction_t) (s : Chip8) : Chip8 :=
  if s.V instr.X = instr.NN then { s with PC := (s.PC + 2) % 65536 } else s

/-- `Chip8::handle_4_instr`: skip if `V[X] != NN`. -/
def handle_4_instr (instr : instruction_t) (s : Chip8) : Chip8 :=
  if s.V instr.X ≠ instr.NN then { s with PC := (s.PC + 2) % 65536 } else s

/-- `Chip8::handle_5_instr`: skip if `V[X] == V[Y]`. -/
def handle_5_instr (instr : instruction_t) (s : Chip8) : Chip8 :=
  if s.V instr.X = s.V instr.Y then { s with PC := (s.PC + 2) % 65536 } else s

/-- `Chip8::handle_6_instr`: `V[X] = NN`. -/
def handle_6_instr (instr : instruction_t) (s : Chip8) : Chip8 :=
  { s with V := upd s.V instr.X instr.NN }

/-- `Chip8::handle_7_instr`: `V[X] += NN` with `uint8_t` wraparound. -/
def handle_7_instr (instr : instruction_t) (s : Chip8) : Chip8 :=
  { s with V := upd s.V instr.X ((s.V instr.X + instr.NN) % 256) }

/-- `Chip8::handle_8_instr`, the register-register ALU family keyed by
`N`.  Each case mirrors the source's write order (the arithmetic result
is written to `V[X]` first, the flag to `V[0xF]` afterwards, and the
flag expression reads the registers as they are at that point).  `none`
models the `default:` branch's `std::unreachable()`. -/
def handle_8_instr (instr : instruction_t) (s : Chip8) : Option Chip8 :=
  match instr.N with
  | 0x0 => some { s with V := upd s.V instr.X (s.V instr.Y) }
  | 0x1 => some { s with V := upd s.V instr.X (s.V instr.X ||| s.V instr.Y) }
  | 0x2 => some { s with V := upd s.V instr.X (s.V instr.X &&& s.V instr.Y) }
  | 0x3 => some { s with V := upd s.V instr.X (s.V instr.X ^^^ s.V instr.Y) }
  | 0x4 =>
    let tmp := s.V instr.X
    let v1 := upd s.V instr.X ((s.V instr.X + s.V instr.Y) % 256)
    some { s with V := upd v1 0xF (if v1 instr.X < tmp then 1 else 0) }
  | 0x5 =>
    let tmp := s.V instr.X
    let v1 := upd s.V instr.X ((s.V instr.X + 256 - s.V instr.Y) % 256)
    some { s with V := upd v1 0xF (if v1 instr.X > tmp then 0 else 1) }
  | 0x6 =>
    let v0 := if s.copy_vy_to_vx_in_shift then upd s.V instr.X (s.V instr.Y) else s.V
    let tmp := v0 instr.X &&& 0x1
    let v1 := upd v0 instr.X (v0 instr.X >>> 1)
    some { s with V := upd v1 0xF tmp }
  | 0x7 =>
    let v1 := upd s.V instr.X ((s.V instr.Y + 256 - s.V instr.X) % 256)
    some { s with V := upd v1 0xF (if v1 instr.X > v1 instr.Y then 0 else 1) }
  | 0xE =>
    let v0 := if s.copy_vy_to_vx_in_shift then upd s.V instr.X (s.V instr.Y) else s.V
    let tmp := v0 instr.X >>> 7
    let v1 := upd v0 instr.X ((v0 instr.X <<< 1) % 256)
    some { s with V := upd v1 0xF tmp }
  | _ => none

/-- `Chip8::handle_9_instr`: skip if `V[X] != V[Y]`. -/
def handle_9_instr (instr : instruction_t) (s : Chip8) : Chip8 :=
  if s.V instr.X ≠ s.V instr.Y then { s with PC := (s.PC + 2) % 65536 } else s

/-- `Chip8::handle_A_instr`: `I = NNN`. -/
def handle_A_instr (instr : instruction_t) (s : Chip8) : Chip8 :=
  { s with I := instr.NNN }

/-- `Chip8::handle_B_instr`: `PC = V[reg] + NNN`, `reg` selected by the
`make_BNNN_into_BXNN` quirk. -/
def handle_B_instr (instr : instruction_t) (s : Chip8) : Chip8 :=
  let reg := if s.make_BNNN_into_BXNN then instr.X else 0
  { s with PC := (s.V reg + instr.NNN) % 65536 }

/-- `Chip8::handle_C_instr`: `V[X] = rand() & NN`.  The byte drawn from
the source's `mt19937` distribution (a value in `[0, 255]`) is passed in
as the `rand` oracle. -/
def handle_C_instr (rand : Nat) (instr : instruction_t) (s : Chip8) : Chip8 :=
  { s with V := upd s.V instr.X (rand % 256 &&& instr.NN) }

/-- `Chip8::handle_E_instr`: skip on key / skip on no key; `none` models
the `default:` branch's `std::unreachable()`. -/
def handle_E_instr (instr : instruction_t) (s : Chip8) : Option Chip8 :=
  match instr.NN with
  | 0x9E =>
    some (if s.keyboard (s.V instr.X) then { s with PC := (s.PC + 2) % 65536 } else s)
  | 0xA1 =>
    some (if ¬ s.keyboard (s.V instr.X) then { s with PC := (s.PC + 2) % 65536 } else s)
  | _ => none

/-- The inner column loop of `Chip8::handle_D_instr`:
`for(c; c < 8 && x + c < 64; ++c)` over one sprite row, testing bit
`7 - c`, recording a collision when an already-set pixel is hit, and
flipping the pixel.  `fuel` counts the remaining iterations (`8 - c`),
making the `c < 8` bound structural; the `x + c < 64` clipping guard is
the `if`. -/
def drawCols (rowByte x yr : Nat) :
    Nat → Nat → (Nat → Bool) → Bool → ((Nat → Bool) × Bool)
  | _, 0, screen, vf => (screen, vf)
  | c, fuel + 1, screen, vf =>
    if x + c < 64 then
      if testBit rowByte (7 - c) then
        drawCols rowByte x yr (c + 1) fuel
          (upd screen (yr * 64 + (x + c)) (! screen (yr * 64 + (x + c))))
          (if screen (yr * 64 + (x + c)) then true else vf)
      else
        drawCols rowByte x yr (c + 1) fuel screen vf
    else (screen, vf)

/-- The outer row loop of `Chip8::handle_D_instr`:
`for(r; r < N && y + r < 32; ++r)`, loading the sprite row from
`ram[I + r]` and running the column loop.  `fuel` counts the remaining
iterations (`N - r`); `y + r < 32` is the bottom-edge clipping guard. -/
def drawRows (ram : Nat → Nat) (i x y : Nat) :
    Nat → Nat → (Nat → Bool) → Bool → ((Nat → Bool) × Bool)
  | _, 0, screen, vf => (screen, vf)
  | r, fuel + 1, screen, vf =>
    if y + r < 32 then
      drawRows ram i x y (r + 1) fuel
        (drawCols (ram (i + r)) x (y + r) 0 8 screen vf).1
        (drawCols (ram (i + r)) x (y + r) 0 8 screen vf).2
    else (screen, vf)

/-- `Chip8::handle_D_instr` (opcode DXYN).  The origin is
`V[X] % 64, V[Y] % 32` read before any write; the source zeroes
`V[0xF]` first and sets it to 1 on a collision, which (the loops never
read `V`) equals one final write of the collision flag. -/
def handle_D_instr (instr : instruction_t) (s : Chip8) : Chip8 :=
  { s with
    screen :=
      (drawRows s.ram s.I (s.V instr.X % 64) (s.V instr.Y % 32) 0 instr.N s.screen false).1
    V := upd s.V 0xF
      (if (drawRows s.ram s.I (s.V instr.X % 64) (s.V instr.Y % 32) 0 instr.N
            s.screen false).2
       then 1 else 0) }

/-- The key scan of opcode FX0A:
`for(i = 0; i < keyboard.size(); ++i) if(keyboard.test(i)) ...` — the
first pressed key index, scanning upward from `i`; `fuel` is `16 - i`. -/
def findPressedKey (kb : Nat → Bool) : Nat → Nat → Option Nat
  | _, 0 => none
  | i, fuel + 1 => if kb i then some i else findPressedKey kb (i + 1) fuel

/-- The store loop of opcode FX55:
`for(i = 0; i <= X; ++i) ram[I + i] = V[i]` with `fuel = X + 1 - i`. -/
def storeRegs (v : Nat → Nat) (base : Nat) :
    Nat → Nat → (Nat → Nat) → (Nat → Nat)
  | _, 0, ram => ram
  | i, fuel + 1, ram => storeRegs v base (i + 1) fuel (upd ram (base + i) (v i))

/-- The load loop of opcode FX65:
`for(i = 0; i <= X; ++i) V[i] = ram[I + i]` with `fuel = X + 1 - i`. -/
def loadRegs (ram : Nat → Nat) (base : Nat) :
    Nat → Nat → (Nat → Nat) → (Nat → Nat)
  | _, 0, v => v
  | i, fuel + 1, v => loadRegs ram base (i + 1) fuel (upd v i (ram (base + i)))

/-- `Chip8::handle_F_instr`, keyed by `NN`.  The C++ switch has no
`default:` label, so an `NN` outside the listed cases falls through with
no effect; the catch-all returns `s` unchanged.  The FX29 case keeps the
source exactly: `I = ram[V[instr.X] & 0xF]` (the *byte* of the font
table at index `V[X] & 0xF`).  FX1E is `I += V[X]` with the
`V[0xF] = (I > 0xFFF)` line commented out in the source. -/
def handle_F_instr (instr : instruction_t) (s : Chip8) : Chip8 :=
  match instr.NN with
  | 0x07 => { s with V := upd s.V instr.X s.delay_timer }
  | 0x0A =>
    match findPressedKey s.keyboard 0 16 with
    | some i => { s with V := upd s.V instr.X i }
    | none => { s with PC := (s.PC + 65534) % 65536 }
  | 0x15 => { s with delay_timer := s.V instr.X }
  | 0x18 => { s with sound_timer := s.V instr.X }
  | 0x1E => { s with I := (s.I + s.V instr.X) % 65536 }
  | 0x29 => { s with I := s.ram (s.V instr.X &&& 0xF) }
  | 0x33 =>
    let ram1 := upd s.ram (s.I + 2) (s.V instr.X % 10)
    let ram2 := upd ram1 (s.I + 1) (s.V instr.X / 10 % 10)
    { s with ram := upd ram2 s.I (s.V instr.X / 100 % 10) }
  | 0x55 =>
    let s1 := { s with ram := storeRegs s.V s.I 0 (instr.X + 1) s.ram }
    if s1.FX55_FX65_modify_I then { s1 with I := (s1.I + instr.X + 1) % 65536 } else s1
  | 0x65 =>
    let s1 := { s with V := loadRegs s.ram s.I 0 (instr.X + 1) s.V }
    if s1.FX55_FX65_modify_I then { s1 with I := (s1.I + instr.X + 1) % 65536 } else s1
  | _ => s

/-- The big-endian instruction word fetched at PC:
`ram[PC] << 8 | ram[PC + 1]` (the two `PC++` are on a `uint16_t`). -/
def fetched (s : Chip8) : Nat :=
  (s.ram s.PC <<< 8) ||| s.ram ((s.PC + 1) % 65536)

/-- `Chip8::cpu_next_instr`: fetch the word at PC, advance PC by 2,
decode, dispatch on the top 4 bits.  `rand` is the oracle for the
family-C random byte.  `none` propagates the undefined-behaviour paths
of families 0, 8 and E.  The catch-all arm is unreachable for byte-valued
ram (`tmp >>> 12 < 16`). -/
def cpu_next_instr (rand : Nat) (s : Chip8) : Option Chip8 :=
  let tmp := fetched s
  let instr := decode tmp
  let s1 : Chip8 := { s with PC := (s.PC + 2) % 65536 }
  match tmp >>> 12 with
  | 0x0 => handle_0_instr instr s1
  | 0x1 => some (handle_1_instr instr s1)
  | 0x2 => some (handle_2_instr instr s1)
  | 0x3 => some (handle_3_instr instr s1)
  | 0x4 => some (handle_4_instr instr s1)
  | 0x5 => some (handle_5_instr instr s1)
  | 0x6 => some (handle_6_instr instr s1)
  | 0x7 => some (handle_7_instr instr s1)
  | 0x8 => handle_8_instr instr s1
  | 0x9 => some (handle_9_instr instr s1)
  | 0xA => some (handle_A_instr instr s1)
  | 0xB => some (handle_B_instr instr s1)
  | 0xC => some (handle_C_instr rand instr s1)
  | 0xD => some (handle_D_instr instr s1)
  | 0xE => handle_E_instr instr s1
  | 0xF => some (handle_F_instr instr s1)
  | _ => some s1

/-- `o` is `some` and its value satisfies `P`: binder-free way to state a
property of an `Option`-valued step at a concrete input. -/
def optHolds (o : Option Chip8) (P : Chip8 → Prop) : Prop :=
  match o with
  | none => False
  | some s => P s

/-- The `ram` indices written by the FX33 case, exactly the index
expressions of the source (`ram[I + 2]`, `ram[I + 1]`, `ram[I]`, in
write order). -/
def fx33_addrs (s : Chip8) : List Nat :=
  [s.I + 2, s.I + 1, s.I]

/-- The `ram` indices touched by FX55 (writes) and FX65 (reads): `I + i`
for `i = 0 .. X`. -/
def fx5x_addrs (instr : instruction_t) (s : Chip8) : List Nat :=
  (List.range (instr.X + 1)).map (fun i => s.I + i)

/-- The `ram` indices read by the DXYN row loop: `I + r` for each row
the loop reaches (`r < N` with fuel, and `y + r < 32`), mirroring
`drawRows`. -/
def dxynRowAddrs (i y : Nat) : Nat → Nat → List Nat
  | _, 0 => []
  | r, fuel + 1 =>
    if y + r < 32 then (i + r) :: dxynRowAddrs i y (r + 1) fuel else []

/-- The pixels flipped by the column loop `drawCols` run from column `c`
with `fuel` iterations left: bit `7 - c` set and `x + c < 64`. -/
def colFlips (rowByte x yr : Nat) : Nat → Nat → Nat → Bool
  | _, 0, _ => false
  | c, fuel + 1, p =>
    if x + c < 64 then
      (testBit rowByte (7 - c) && decide (p = yr * 64 + (x + c)))
        || colFlips rowByte x yr (c + 1) fuel p
    else false

/-- Whether the column loop `drawCols`, run from column `c` with `fuel`
iterations left over `screen`, observes a collision: some reached set
sprite bit lands on a set pixel of `screen`. -/
def colHits (rowByte x yr : Nat) (screen : Nat → Bool) : Nat → Nat → Bool
  | _, 0 => false
  | c, fuel + 1 =>
    if x + c < 64 then
      (testBit rowByte (7 - c) && screen (yr * 64 + (x + c)))
        || colHits rowByte x yr screen (c + 1) fuel
    else false

/-- The pixels flipped by the row loop `drawRows` from row `r` with
`fuel` iterations left. -/
def rowFlips (ram : Nat → Nat) (i x y : Nat) : Nat → Nat → Nat → Bool
  | _, 0, _ => false
  | r, fuel + 1, p =>
    if y + r < 32 then
      colFlips (ram (i + r)) x (y + r) 0 8 p || rowFlips ram i x y (r + 1) fuel p
    else false

/-- Whether the row loop `drawRows` from row `r`, run over `screen`,
observes a collision. -/
def rowHits (ram : Nat → Nat) (i x y : Nat) (screen : Nat → Bool) : Nat → Nat → Bool
  | _, 0 => false
  | r, fuel + 1 =>
    if y + r < 32 then
      colHits (ram (i + r)) x (y + r) screen 0 8 || rowHits ram i x y screen (r + 1) fuel
    else false

/-! ## Helper lemmas -/

theorem upd_self {α : Type} (f : Nat → α) (i : Nat) (v : α) : upd f i v i = v := by
  simp [upd]

theorem upd_other {α : Type} (f : Nat → α) (i j : Nat) (v : α) (h : j ≠ i) :
    upd f i v j = f j := by
  simp [upd, h]

/-- `uint8_t` subtraction `x - y` written over `Nat`: its value, split on
whether a borrow occurs. -/
theorem sub256_eq (x y : Nat) (hx : x < 256) (hy : y < 256) :
    (x + 256 - y) % 256 = if y ≤ x then x - y else x + 256 - y := by
  rcases le_or_lt y x with h | h
  · rw [if_pos h, show x + 256 - y = 256 + (x - y) by omega, Nat.add_mod_left,
      Nat.mod_eq_of_lt (by omega)]
  · rw [if_neg (by omega), Nat.mod_eq_of_lt (by omega)]

theorem loadBytes_frame (prog : List Nat) :
    ∀ a ram p, (p < a ∨ a + prog.length ≤ p) → loadBytes a prog ram p = ram p := by
  induction prog with
  | nil => intro a ram p _; rfl
  | cons b rest ih =>
    intro a ram p hp
    show loadBytes (a + 1) rest (upd ram a b) p = ram p
    rw [ih (a + 1) (upd ram a b) p (by simp at hp; omega)]
    exact upd_other ram a p b (by simp at hp; omega)

theorem loadBytes_get (prog : List Nat) :
    ∀ a ram i, i < prog.length → loadBytes a prog ram (a + i) = prog.getD i 0 := by
  induction prog with
  | nil => intro a ram i hi; simp at hi
  | cons b rest ih =>
    intro a ram i hi
    match i with
    | 0 =>
      show loadBytes (a + 1) rest (upd ram a b) (a + 0) = b
      rw [loadBytes_frame rest (a + 1) (upd ram a b) (a + 0) (by omega)]
      exact upd_self ram a b
    | i + 1 =>
      show loadBytes (a + 1) rest (upd ram a b) (a + (i + 1)) = rest.getD i 0
      rw [show a + (i + 1) = (a + 1) + i by omega]
      exact ih (a + 1) (upd ram a b) i (by simp at hi; omega)

/-! ### Draw-loop characterization -/

theorem xor_or_of_not_both (a b c : Bool) (h : b = true → c = true → False) :
    Bool.xor (Bool.xor a b) c = Bool.xor a (b || c) := by
  cases b <;> cases c <;> simp_all

theorem colFlips_pos (rowByte x yr : Nat) :
    ∀ fuel c p, colFlips rowByte x yr c fuel p = true →
      ∃ d, d < fuel ∧ x + (c + d) < 64 ∧ testBit rowByte (7 - (c + d)) = true
        ∧ p = yr * 64 + (x + (c + d)) := by
  intro fuel
  induction fuel with
  | zero => intro c p h; simp [colFlips] at h
  | succ fuel ih =>
    intro c p h
    rw [colFlips] at h
    by_cases hg : x + c < 64
    · rw [if_pos hg] at h
      rcases Bool.or_eq_true_iff.mp h with h1 | h2
      · exact ⟨0, by omega, by simpa using hg, (Bool.and_eq_true_iff.mp h1).1,
          by simpa using of_decide_eq_true (Bool.and_eq_true_iff.mp h1).2⟩
      · obtain ⟨d, hd, hx64, hbit, hp⟩ := ih (c + 1) p h2
        refine ⟨d + 1, by omega, by omega, ?_, ?_⟩
        · rw [show c + (d + 1) = c + 1 + d by omega]; exact hbit
        · rw [show c + (d + 1) = c + 1 + d by omega]; exact hp
    · rw [if_neg hg] at h
      simp at h

theorem colHits_pos (rowByte x yr : Nat) (screen : Nat → Bool) :
    ∀ fuel c, colHits rowByte x yr screen c fuel = true →
      ∃ d, d < fuel ∧ x + (c + d) < 64 ∧ testBit rowByte (7 - (c + d)) = true
        ∧ screen (yr * 64 + (x + (c + d))) = true := by
  intro fuel
  induction fuel with
  | zero => intro c h; simp [colHits] at h
  | succ fuel ih =>
    intro c h
    rw [colHits] at h
    by_cases hg : x + c < 64
    · rw [if_pos hg] at h
      rcases Bool.or_eq_true_iff.mp h with h1 | h2
      · exact ⟨0, by omega, by simpa using hg, (Bool.and_eq_true_iff.mp h1).1,
          (Bool.and_eq_true_iff.mp h1).2⟩
      · obtain ⟨d, hd, hx64, hbit, hscr⟩ := ih (c + 1) h2
        refine ⟨d + 1, by omega, ?_, ?_, ?_⟩
        · omega
        · rw [show c + (d + 1) = c + 1 + d by omega]; exact hbit
        · rw [show c + (d + 1) = c + 1 + d by omega]; exact hscr
    · rw [if_neg hg] at h
      simp at h

theorem colHits_congr (rowByte x yr : Nat) (s1 s2 : Nat → Bool) :
    ∀ fuel c,
      (∀ d, s1 (yr * 64 + (x + (c + d))) = s2 (yr * 64 + (x + (c + d)))) →
      colHits rowByte x yr s1 c fuel = colHits rowByte x yr s2 c fuel := by
  intro fuel
  induction fuel with
  | zero => intro c _; rfl
  | succ fuel ih =>
    intro c hagree
    rw [colHits, colHits]
    by_cases hg : x + c < 64
    · rw [if_pos hg, if_pos hg,
        ih (c + 1) (fun d => by
          have := hagree (1 + d)
          rw [show c + (1 + d) = c + 1 + d by omega] at this
          exact this)]
      have := hagree 0
      rw [Nat.add_zero] at this
      rw [this]
    · rw [if_neg hg, if_neg hg]

theorem colHits_of_flip (rowByte x yr : Nat) (screen : Nat → Bool) :
    ∀ fuel c p, colFlips rowByte x yr c fuel p = true → screen p = true →
      colHits rowByte x yr screen c fuel = true := by
  intro fuel
  induction fuel with
  | zero => intro c p h; simp [colFlips] at h
  | succ fuel ih =>
    intro c p h hscr
    rw [colFlips] at h
    rw [colHits]
    by_cases hg : x + c < 64
    · rw [if_pos hg] at h
      rw [if_pos hg]
      rcases Bool.or_eq_true_iff.mp h with h1 | h2
      · have hbit := (Bool.and_eq_true_iff.mp h1).1
        have hp := of_decide_eq_true (Bool.and_eq_true_iff.mp h1).2
        apply Bool.or_eq_true_iff.mpr
        left
        rw [Bool.and_eq_true]
        exact ⟨hbit, hp ▸ hscr⟩
      · apply Bool.or_eq_true_iff.mpr
        right
        exact ih (c + 1) p h2 hscr
    · rw [if_neg hg] at h
      simp at h

theorem drawCols_spec (rowByte x yr : Nat) :
    ∀ fuel c screen vf,
      (∀ p, (drawCols rowByte x yr c fuel screen vf).1 p
          = Bool.xor (screen p) (colFlips rowByte x yr c fuel p))
      ∧ (drawCols rowByte x yr c fuel screen vf).2
          = (vf || colHits rowByte x yr screen c fuel) := by
  intro fuel
  induction fuel with
  | zero =>
    intro c screen vf
    exact ⟨fun p => by simp [drawCols, colFlips], by simp [drawCols, colHits]⟩
  | succ fuel ih =>
    intro c screen vf
    rw [drawCols]
    by_cases hg : x + c < 64
    · rw [if_pos hg]
      cases hbit : testBit rowByte (7 - c) with
      | true =>
        rw [if_pos rfl]
        constructor
        · intro p
          rw [(ih (c + 1) (upd screen (yr * 64 + (x + c)) (! screen (yr * 64 + (x + c))))
              (if screen (yr * 64 + (x + c)) then true else vf)).1 p]
          rw [colFlips, if_pos hg, hbit]
          by_cases hp : p = yr * 64 + (x + c)
          · subst hp
            rw [upd_self]
            have hflips0 : colFlips rowByte x yr (c + 1) fuel (yr * 64 + (x + c)) = false := by
              by_contra hcon
              obtain ⟨d, _, hx64, _, habs⟩ :=
                colFlips_pos rowByte x yr fuel (c + 1)
                  (yr * 64 + (x + c)) (by simpa using hcon)
              omega
            rw [hflips0]
            simp
          · rw [upd_other _ _ _ _ hp]
            rw [decide_eq_false hp]
            simp
        · rw [(ih (c + 1) (upd screen (yr * 64 + (x + c)) (! screen (yr * 64 + (x + c))))
              (if screen (yr * 64 + (x + c)) then true else vf)).2]
          rw [colHits, if_pos hg, hbit]
          rw [colHits_congr rowByte x yr
            (upd screen (yr * 64 + (x + c)) (! screen (yr * 64 + (x + c)))) screen
            fuel (c + 1)
            (fun d => upd_other _ _ _ _ (by omega))]
          cases hs : screen (yr * 64 + (x + c)) <;> cases vf <;> simp [hs]
      | false =>
        rw [if_neg Bool.false_ne_true]
        constructor
        · intro p
          rw [(ih (c + 1) screen vf).1 p]
          rw [colFlips, if_pos hg, hbit]
          simp
        · rw [(ih (c + 1) screen vf).2]
          rw [colHits, if_pos hg, hbit]
          simp
    · rw [if_neg hg]
      constructor
      · intro p
        rw [colFlips, if_neg hg]
        simp
      · rw [colHits, if_neg hg]
        simp

/-- A pixel flipped by a full column pass lies in screen row `yr`, in
columns `x .. x + 7`. -/
theorem colFlips_row (rowByte x yr p : Nat)
    (h : colFlips rowByte x yr 0 8 p = true) :
    p / 64 = yr ∧ x ≤ p % 64 ∧ p % 64 < x + 8 := by
  obtain ⟨d, hd, hx64, _, hp⟩ := colFlips_pos rowByte x yr 8 0 p h
  subst hp
  omega

theorem rowFlips_pos (ram : Nat → Nat) (i x y : Nat) :
    ∀ fuel r p, rowFlips ram i x y r fuel p = true →
      ∃ d, d < fuel ∧ y + (r + d) < 32
        ∧ colFlips (ram (i + (r + d))) x (y + (r + d)) 0 8 p = true := by
  intro fuel
  induction fuel with
  | zero => intro r p h; simp [rowFlips] at h
  | succ fuel ih =>
    intro r p h
    rw [rowFlips] at h
    by_cases hg : y + r < 32
    · rw [if_pos hg] at h
      rcases Bool.or_eq_true_iff.mp h with h1 | h2
      · exact ⟨0, by omega, by simpa using hg, by simpa using h1⟩
      · obtain ⟨d, hd, h32, hc⟩ := ih (r + 1) p h2
        refine ⟨d + 1, by omega, by omega, ?_⟩
        rw [show r + (d + 1) = r + 1 + d by omega]
        exact hc
    · rw [if_neg hg] at h
      simp at h

theorem rowHits_pos (ram : Nat → Nat) (i x y : Nat) (screen : Nat → Bool) :
    ∀ fuel r, rowHits ram i x y screen r fuel = true →
      ∃ d, d < fuel ∧ y + (r + d) < 32
        ∧ colHits (ram (i + (r + d))) x (y + (r + d)) screen 0 8 = true := by
  intro fuel
  induction fuel with
  | zero => intro r h; simp [rowHits] at h
  | succ fuel ih =>
    intro r h
    rw [rowHits] at h
    by_cases hg : y + r < 32
    · rw [if_pos hg] at h
      rcases Bool.or_eq_true_iff.mp h with h1 | h2
      · exact ⟨0, by omega, by simpa using hg, by simpa using h1⟩
      · obtain ⟨d, hd, h32, hc⟩ := ih (r + 1) h2
        refine ⟨d + 1, by omega, by omega, ?_⟩
        rw [show r + (d + 1) = r + 1 + d by omega]
        exact hc
    · rw [if_neg hg] at h
      simp at h

theorem rowHits_congr (ram : Nat → Nat) (i x y : Nat) (s1 s2 : Nat → Bool) :
    ∀ fuel r, (∀ p, y + r ≤ p / 64 → s1 p = s2 p) →
      rowHits ram i x y s1 r fuel = rowHits ram i x y s2 r fuel := by
  intro fuel
  induction fuel with
  | zero => intro r _; rfl
  | succ fuel ih =>
    intro r hagree
    rw [rowHits, rowHits]
    by_cases hg : y + r < 32
    · rw [if_pos hg, if_pos hg,
        colHits_congr (ram (i + r)) x (y + r) s1 s2 8 0
          (fun d => hagree ((y + r) * 64 + (x + (0 + d))) (by omega)),
        ih (r + 1) (fun p hp => hagree p (by omega))]
    · rw [if_neg hg, if_neg hg]

theorem rowHits_of_flip (ram : Nat → Nat) (i x y : Nat) (screen : Nat → Bool) :
    ∀ fuel r p, rowFlips ram i x y r fuel p = true → screen p = true →
      rowHits ram i x y screen r fuel = true := by
  intro fuel
  induction fuel with
  | zero => intro r p h; simp [rowFlips] at h
  | succ fuel ih =>
    intro r p h hscr
    rw [rowFlips] at h
    rw [rowHits]
    by_cases hg : y + r < 32
    · rw [if_pos hg] at h
      rw [if_pos hg]
      rcases Bool.or_eq_true_iff.mp h with h1 | h2
      · apply Bool.or_eq_true_iff.mpr
        left
        exact colHits_of_flip (ram (i + r)) x (y + r) screen 8 0 p h1 hscr
      · apply Bool.or_eq_true_iff.mpr
        right
        exact ih (r + 1) p h2 hscr
    · rw [if_neg hg] at h
      simp at h

theorem drawRows_spec (ram : Nat → Nat) (i x y : Nat) :
    ∀ fuel r screen vf,
      (∀ p, (drawRows ram i x y r fuel screen vf).1 p
          = Bool.xor (screen p) (rowFlips ram i x y r fuel p))
      ∧ (drawRows ram i x y r fuel screen vf).2
          = (vf || rowHits ram i x y screen r fuel) := by
  intro fuel
  induction fuel with
  | zero =>
    intro r screen vf
    exact ⟨fun p => by simp [drawRows, rowFlips], by simp [drawRows, rowHits]⟩
  | succ fuel ih =>
    intro r screen vf
    rw [drawRows]
    by_cases hg : y + r < 32
    · rw [if_pos hg]
      have hcol := drawCols_spec (ram (i + r)) x (y + r) 8 0 screen vf
      have hrec := ih (r + 1)
        (drawCols (ram (i + r)) x (y + r) 0 8 screen vf).1
        (drawCols (ram (i + r)) x (y + r) 0 8 screen vf).2
      constructor
      · intro p
        rw [hrec.1 p, hcol.1 p, rowFlips, if_pos hg]
        apply xor_or_of_not_both
        intro hcf hrf
        have h1 := colFlips_row (ram (i + r)) x (y + r) p hcf
        obtain ⟨d, _, _, hcc⟩ := rowFlips_pos ram i x y fuel (r + 1) p hrf
        have h2 := colFlips_row (ram (i + (r + 1 + d))) x (y + (r + 1 + d)) p hcc
        omega
      · rw [hrec.2, hcol.2, rowHits, if_pos hg]
        have hagree : ∀ p, y + (r + 1) ≤ p / 64 →
            (drawCols (ram (i + r)) x (y + r) 0 8 screen vf).1 p = screen p := by
          intro p hp
          rw [hcol.1 p]
          have hflip0 : colFlips (ram (i + r)) x (y + r) 0 8 p = false := by
            by_contra hc
            have h1 := colFlips_row (ram (i + r)) x (y + r) p (by simpa using hc)
            omega
          rw [hflip0]
          simp
        rw [rowHits_congr ram i x y
          (drawCols (ram (i + r)) x (y + r) 0 8 screen vf).1 screen fuel (r + 1) hagree]
        rw [Bool.or_assoc]
    · rw [if_neg hg]
      constructor
      · intro p
        rw [rowFlips, if_neg hg]
        simp
      · rw [rowHits, if_neg hg]
        simp

/-- The effect of `handle_D_instr`, phrased through the flip mask and the
collision predicate: the screen is the XOR of the old screen with the
mask of drawn (in-bounds, set) sprite bits, and `V[0xF]` records whether
some drawn bit landed on a set pixel. -/
theorem handle_D_spec (instr : instruction_t) (s : Chip8) :
    (∀ p, (handle_D_instr instr s).screen p
        = Bool.xor (s.screen p)
            (rowFlips s.ram s.I (s.V instr.X % 64) (s.V instr.Y % 32) 0 instr.N p))
    ∧ (handle_D_instr instr s).V
        = upd s.V 0xF
            (if rowHits s.ram s.I (s.V instr.X % 64) (s.V instr.Y % 32) s.screen 0 instr.N
             then 1 else 0) := by
  constructor
  · intro p
    show (drawRows s.ram s.I (s.V instr.X % 64) (s.V instr.Y % 32) 0 instr.N
        s.screen false).1 p = _
    rw [(drawRows_spec s.ram s.I (s.V instr.X % 64) (s.V instr.Y % 32) instr.N 0
      s.screen false).1 p]
  · show upd s.V 0xF
        (if (drawRows s.ram s.I (s.V instr.X % 64) (s.V instr.Y % 32) 0 instr.N
              s.screen false).2
         then 1 else 0) = _
    rw [(drawRows_spec s.ram s.I (s.V instr.X % 64) (s.V instr.Y % 32) instr.N 0
      s.screen false).2]
    simp

/-! ## C1: opcode FX29 (font glyph address) -/

/-- C1: the claim fails and the code contradicts its own comment.  On a
fresh machine with `V[0] = 1`, executing FX29 (X = 0) sets
`I = ram[V[0] & 0xF] = ram[1] = 0x90 = 144`, the second *byte* of the
font table, not the glyph address `5 * (V[0] & 0xF) = 5` that the
comment (`set I to the beginning of the system font char`) and the spec
require. -/
theorem fx29_stores_font_byte_not_address :
    (handle_F_instr (decode 0xF029) { initState with V := upd initState.V 0 1 }).I
      = initState.ram 1
    ∧ initState.ram 1 = 144
    ∧ ¬ (handle_F_instr (decode 0xF029)
          { initState with V := upd initState.V 0 1 }).I = 5 * 1 := by
  refine ⟨rfl, by decide, by decide⟩

/-! ## C2: timer decrement at 0 -/

/-- C2 counterexample: on a machine whose timers are 0, the decrement
operations wrap to 255 instead of leaving the timer at 0 (`--timer` on a
`uint8_t`). -/
theorem timer_decrement_wraps_at_zero :
    (decrement_delay_timer initState).delay_timer = 255
    ∧ (decrement_sound_timer initState).sound_timer = 255 := by decide

/-- C2 amended: the raw decrement operations subtract 1 modulo 256, so
saturation at 0 is implemented by the host loop's guard (main.cpp calls
the decrement only when the timer is positive): the guarded tick maps a
timer `t < 256` to `t - 1` in `Nat` (0 stays 0, never 255). -/
theorem host_guarded_timer_tick_saturates (s : Chip8)
    (hd : s.delay_timer < 256) (hs : s.sound_timer < 256) :
    (host_tick_delay s).delay_timer = s.delay_timer - 1
    ∧ (host_tick_sound s).sound_timer = s.sound_timer - 1 := by
  constructor
  · unfold host_tick_delay decrement_delay_timer
    rcases Nat.eq_zero_or_pos s.delay_timer with h | h
    · simp [h]
    · simp only [if_pos h]
      omega
  · unfold host_tick_sound decrement_sound_timer
    rcases Nat.eq_zero_or_pos s.sound_timer with h | h
    · simp [h]
    · simp only [if_pos h]
      omega

theorem host_guarded_timer_tick_saturates_witness :
    (host_tick_delay initState).delay_timer = initState.delay_timer - 1
    ∧ (host_tick_sound initState).sound_timer = initState.sound_timer - 1 :=
  host_guarded_timer_tick_saturates initState (by decide) (by decide)

/-! ## C3: program load bound -/

/-- C3 counterexample: a program of exactly `4096 - 0x200 = 3584` bytes
is rejected (the source asserts `prog.size() < MAX_PROG_SIZE`, strict),
though the claim says a load of length exactly 3584 succeeds. -/
theorem load_rejects_exactly_3584 :
    load (List.replicate 3584 0) initState = none := by
  unfold load
  rw [List.length_replicate, if_neg (by norm_num [MAX_PROG_SIZE])]

/-- C3 amended: the load succeeds exactly when the program is *shorter*
than 3584 bytes; on success memory `[0x200, 0x200+length)` holds the
sequence and all other addresses are unchanged; it fails (assertion)
exactly when the length is at least 3584. -/
theorem load_amended (prog : List Nat) (s : Chip8) :
    (prog.length < MAX_PROG_SIZE →
        load prog s = some { s with ram := loadBytes PC_RESET_VALUE prog s.ram })
    ∧ (∀ i, i < prog.length →
        loadBytes PC_RESET_VALUE prog s.ram (PC_RESET_VALUE + i) = prog.getD i 0)
    ∧ (∀ a, a < PC_RESET_VALUE ∨ PC_RESET_VALUE + prog.length ≤ a →
        loadBytes PC_RESET_VALUE prog s.ram a = s.ram a)
    ∧ (load prog s = none ↔ MAX_PROG_SIZE ≤ prog.length) := by
  refine ⟨fun h => by simp [load, h], fun i hi => loadBytes_get prog _ _ i hi,
    fun a ha => loadBytes_frame prog _ _ a ha, ?_⟩
  unfold load
  rcases Nat.lt_or_ge prog.length MAX_PROG_SIZE with h | h
  · rw [if_pos h]
    simp
    omega
  · rw [if_neg (Nat.not_lt.mpr h)]
    simp [h]

theorem load_amended_witness :
    load [7, 8] initState
        = some { initState with ram := loadBytes PC_RESET_VALUE [7, 8] initState.ram }
    ∧ loadBytes PC_RESET_VALUE [7, 8] initState.ram (PC_RESET_VALUE + 0) = [7, 8].getD 0 0
    ∧ loadBytes PC_RESET_VALUE [7, 8] initState.ram 0x1FF = initState.ram 0x1FF :=
  ⟨(load_amended [7, 8] initState).1 (by decide),
   (load_amended [7, 8] initState).2.1 0 (by decide),
   (load_amended [7, 8] initState).2.2.1 0x1FF (Or.inl (by decide))⟩

/-! ## C4: opcode FX1E -/

/-- C4: FX1E adds `V[X]` to the 16-bit `I` and leaves every register —
in particular `VF` — unchanged: the overflow-flag enhancement is absent
from the shipped behaviour (the `V[0xF] = (I > 0xFFF)` line is commented
out, i.e. the quirk is disabled), for every state and operand. -/
theorem fx1e_adds_to_I_leaves_VF (instr : instruction_t) (s : Chip8)
    (h : instr.NN = 0x1E) :
    (handle_F_instr instr s).V = s.V
    ∧ (handle_F_instr instr s).I = (s.I + s.V instr.X) % 65536 := by
  unfold handle_F_instr
  rw [h]
  exact ⟨rfl, rfl⟩

theorem fx1e_adds_to_I_leaves_VF_witness :
    (handle_F_instr (decode 0xF11E) initState).V = initState.V
    ∧ (handle_F_instr (decode 0xF11E) initState).I
        = (initState.I + initState.V (decode 0xF11E).X) % 65536 :=
  fx1e_adds_to_I_leaves_VF (decode 0xF11E) initState (by decide)

/-! ## C7: opcodes 8XY5 / 8XY7 (borrow flags) -/

/-- C7: after 8XY5, `VF = 1` iff the pre-state `V[X] ≥ V[Y]` (no borrow)
and, for `X ≠ 0xF`, `V[X]` holds the wrapped difference
`(V[X] - V[Y]) mod 256` (written `(V[X] + 256 - V[Y]) % 256` over `Nat`);
after 8XY7 symmetrically with the operands swapped.  The flag overwrites
the arithmetic result when `X = 0xF` because the source writes `V[X]`
first and `V[0xF]` afterwards. -/
theorem sub_opcodes_borrow_flags (instr : instruction_t) (s : Chip8)
    (hx : s.V instr.X < 256) (hy : s.V instr.Y < 256) :
    (instr.N = 0x5 → optHolds (handle_8_instr instr s) (fun s2 =>
        s2.V 0xF = (if s.V instr.Y ≤ s.V instr.X then 1 else 0)
        ∧ (instr.X ≠ 0xF → s2.V instr.X = (s.V instr.X + 256 - s.V instr.Y) % 256)))
    ∧ (instr.N = 0x7 → optHolds (handle_8_instr instr s) (fun s2 =>
        s2.V 0xF = (if s.V instr.X ≤ s.V instr.Y then 1 else 0)
        ∧ (instr.X ≠ 0xF → s2.V instr.X = (s.V instr.Y + 256 - s.V instr.X) % 256))) := by
  constructor
  · intro h5
    unfold handle_8_instr
    rw [h5]
    simp only [optHolds, upd_self]
    constructor
    · rw [sub256_eq (s.V instr.X) (s.V instr.Y) hx hy]
      rcases le_or_lt (s.V instr.Y) (s.V instr.X) with h | h
      · rw [if_pos h,
          if_neg (show ¬ s.V instr.X - s.V instr.Y > s.V instr.X by omega),
          if_pos h]
      · rw [if_neg (Nat.not_le.mpr h),
          if_pos (show s.V instr.X + 256 - s.V instr.Y > s.V instr.X by omega),
          if_neg (Nat.not_le.mpr h)]
    · intro hXF
      rw [upd_other _ _ _ _ hXF, upd_self]
  · intro h7
    unfold handle_8_instr
    rw [h7]
    simp only [optHolds, upd_self]
    constructor
    · rcases eq_or_ne instr.Y instr.X with hYX | hYX
      · rw [hYX, upd_self, if_neg (lt_irrefl _), if_pos le_rfl]
      · rw [upd_other _ _ _ _ hYX]
        rw [sub256_eq (s.V instr.Y) (s.V instr.X) hy hx]
        rcases le_or_lt (s.V instr.X) (s.V instr.Y) with h | h
        · rw [if_pos h,
            if_neg (show ¬ s.V instr.Y - s.V instr.X > s.V instr.Y by omega),
            if_pos h]
        · rw [if_neg (Nat.not_le.mpr h),
            if_pos (show s.V instr.Y + 256 - s.V instr.X > s.V instr.Y by omega),
            if_neg (Nat.not_le.mpr h)]
    · intro hXF
      rw [upd_other _ _ _ _ hXF, upd_self]

theorem sub_opcodes_borrow_flags_witness :
    optHolds (handle_8_instr (decode 0x8125)
        { initState with V := upd (upd initState.V 1 3) 2 5 }) (fun s2 =>
      s2.V 0xF
          = (if ({ initState with V := upd (upd initState.V 1 3) 2 5 } : Chip8).V (decode 0x8125).Y
                ≤ ({ initState with V := upd (upd initState.V 1 3) 2 5 } : Chip8).V (decode 0x8125).X
             then 1 else 0)
        ∧ ((decode 0x8125).X ≠ 0xF →
            s2.V (decode 0x8125).X
              = (({ initState with V := upd (upd initState.V 1 3) 2 5 } : Chip8).V (decode 0x8125).X + 256
                  - ({ initState with V := upd (upd initState.V 1 3) 2 5 } : Chip8).V (decode 0x8125).Y) % 256)) :=
  (sub_opcodes_borrow_flags (decode 0x8125)
    { initState with V := upd (upd initState.V 1 3) 2 5 }
    (by decide) (by decide)).1 (by decide)

/-! ## C8: double draw restores the screen -/

/-- C8: drawing the identical sprite twice at the identical origin (same
`N`, same `I` with the sprite bytes in addressable memory, same `V[X]`
and `V[Y]`, with `X, Y ≠ 0xF` so the first draw's `VF` write does not
disturb the origin) restores the display exactly, and the second draw
reports `VF = 1` whenever the first draw turned at least one in-bounds
pixel on (every bit set by the first draw collides on the second). -/
theorem draw_twice_restores_screen (instr : instruction_t) (s : Chip8)
    (hX : instr.X ≠ 0xF) (hY : instr.Y ≠ 0xF)
    (_hmem : s.I + instr.N ≤ 4096) :
    (handle_D_instr instr (handle_D_instr instr s)).screen = s.screen
    ∧ ((∃ p, (handle_D_instr instr s).screen p = true ∧ s.screen p = false) →
        (handle_D_instr instr (handle_D_instr instr s)).V 0xF = 1) := by
  have hVX : (handle_D_instr instr s).V instr.X = s.V instr.X := by
    rw [(handle_D_spec instr s).2]
    exact upd_other _ _ _ _ hX
  have hVY : (handle_D_instr instr s).V instr.Y = s.V instr.Y := by
    rw [(handle_D_spec instr s).2]
    exact upd_other _ _ _ _ hY
  have hram : (handle_D_instr instr s).ram = s.ram := rfl
  have hI : (handle_D_instr instr s).I = s.I := rfl
  constructor
  · funext p
    rw [(handle_D_spec instr (handle_D_instr instr s)).1 p]
    rw [hVX, hVY, hram, hI]
    rw [(handle_D_spec instr s).1 p]
    cases hM : rowFlips s.ram s.I (s.V instr.X % 64) (s.V instr.Y % 32) 0 instr.N p <;>
      cases s.screen p <;> rfl
  · intro hset
    obtain ⟨p, hp1, hp0⟩ := hset
    have hM : rowFlips s.ram s.I (s.V instr.X % 64) (s.V instr.Y % 32) 0 instr.N p
        = true := by
      have h := (handle_D_spec instr s).1 p
      rw [hp1, hp0] at h
      simpa using h.symm
    have hhits : rowHits s.ram s.I (s.V instr.X % 64) (s.V instr.Y % 32)
        (handle_D_instr instr s).screen 0 instr.N = true :=
      rowHits_of_flip s.ram s.I (s.V instr.X % 64) (s.V instr.Y % 32)
        (handle_D_instr instr s).screen instr.N 0 p hM hp1
    rw [(handle_D_spec instr (handle_D_instr instr s)).2]
    rw [upd_self, hVX, hVY, hram, hI, hhits]
    rfl

theorem draw_twice_restores_screen_witness :
    (handle_D_instr (decode 0xD014) (handle_D_instr (decode 0xD014) initState)).screen
      = initState.screen
    ∧ (handle_D_instr (decode 0xD014) (handle_D_instr (decode 0xD014) initState)).V 0xF
      = 1 :=
  ⟨(draw_twice_restores_screen (decode 0xD014) initState (by decide) (by decide)
      (by decide)).1,
   (draw_twice_restores_screen (decode 0xD014) initState (by decide) (by decide)
      (by decide)).2 ⟨0, by decide, by decide⟩⟩

/-! ## C9: sprite clipping at the screen edges -/

/-- C9: after reducing the origin modulo 64 and 32, a DXYN draw changes
no pixel outside columns `x .. x + 7` and rows `y .. y + N - 1` (sprite
bits past the right/bottom edge are clipped, never wrapped), and `VF`
can be 1 only on account of an in-bounds collision: with no in-bounds
set sprite bit over a set pixel, `VF` is 0. -/
theorem dxyn_clips_no_wrap (instr : instruction_t) (s : Chip8) :
    (∀ p,
        (p % 64 < s.V instr.X % 64 ∨ s.V instr.X % 64 + 7 < p % 64
          ∨ p / 64 < s.V instr.Y % 32 ∨ s.V instr.Y % 32 + instr.N ≤ p / 64) →
        (handle_D_instr instr s).screen p = s.screen p)
    ∧ ((¬ ∃ r c, r < instr.N ∧ s.V instr.Y % 32 + r < 32 ∧ c < 8
          ∧ s.V instr.X % 64 + c < 64
          ∧ testBit (s.ram (s.I + r)) (7 - c) = true
          ∧ s.screen ((s.V instr.Y % 32 + r) * 64 + (s.V instr.X % 64 + c)) = true) →
        (handle_D_instr instr s).V 0xF = 0) := by
  constructor
  · intro p hp
    rw [(handle_D_spec instr s).1 p]
    have hM : rowFlips s.ram s.I (s.V instr.X % 64) (s.V instr.Y % 32) 0 instr.N p
        = false := by
      by_contra hc
      obtain ⟨d, hd, h32, hcf⟩ := rowFlips_pos s.ram s.I (s.V instr.X % 64)
        (s.V instr.Y % 32) instr.N 0 p (by simpa using hc)
      obtain ⟨e, he, hx64, _, hpe⟩ := colFlips_pos (s.ram (s.I + (0 + d)))
        (s.V instr.X % 64) (s.V instr.Y % 32 + (0 + d)) 8 0 p hcf
      subst hpe
      omega
    rw [hM]
    simp
  · intro hno
    rw [(handle_D_spec instr s).2, upd_self]
    have hh : rowHits s.ram s.I (s.V instr.X % 64) (s.V instr.Y % 32) s.screen 0 instr.N
        = false := by
      by_contra hc
      obtain ⟨d, hd, h32, hch⟩ := rowHits_pos s.ram s.I (s.V instr.X % 64)
        (s.V instr.Y % 32) s.screen instr.N 0 (by simpa using hc)
      obtain ⟨e, he, hx64, hbit, hscr⟩ := colHits_pos (s.ram (s.I + (0 + d)))
        (s.V instr.X % 64) (s.V instr.Y % 32 + (0 + d)) s.screen 8 0 hch
      simp only [Nat.zero_add] at h32 hbit hscr hx64
      exact hno ⟨d, e, by omega, by omega, by omega, by omega, hbit, hscr⟩
    rw [hh]
    rfl

theorem dxyn_clips_no_wrap_witness :
    (handle_D_instr (decode 0xD124)
        { initState with V := upd (upd initState.V 1 60) 2 30 }).screen 0
      = ({ initState with V := upd (upd initState.V 1 60) 2 30 } : Chip8).screen 0
    ∧ (handle_D_instr (decode 0xD124)
        { initState with V := upd (upd initState.V 1 60) 2 30 }).V 0xF = 0 :=
  ⟨(dxyn_clips_no_wrap (decode 0xD124)
      { initState with V := upd (upd initState.V 1 60) 2 30 }).1 0 (by decide),
   (dxyn_clips_no_wrap (decode 0xD124)
      { initState with V := upd (upd initState.V 1 60) 2 30 }).2
      (by rintro ⟨r, c, -, -, -, -, -, hscr⟩; simp [initState] at hscr)⟩

/-! ## C6: memory-touching opcodes and the 4096-byte bound -/

theorem dxynRowAddrs_mem (i y : Nat) :
    ∀ fuel r a, a ∈ dxynRowAddrs i y r fuel → ∃ d, d < fuel ∧ a = i + (r + d) := by
  intro fuel
  induction fuel with
  | zero => intro r a ha; simp [dxynRowAddrs] at ha
  | succ fuel ih =>
    intro r a ha
    rw [dxynRowAddrs] at ha
    by_cases hg : y + r < 32
    · rw [if_pos hg] at ha
      rcases List.mem_cons.mp ha with h1 | h2
      · exact ⟨0, by omega, by omega⟩
      · obtain ⟨d, hd, he⟩ := ih (r + 1) a h2
        exact ⟨d + 1, by omega, by omega⟩
    · rw [if_neg hg] at ha
      simp at ha

theorem storeRegs_frame (v : Nat → Nat) (base : Nat) :
    ∀ fuel i ram a, (∀ d, d < fuel → a ≠ base + (i + d)) →
      storeRegs v base i fuel ram a = ram a := by
  intro fuel
  induction fuel with
  | zero => intro i ram a _; rfl
  | succ fuel ih =>
    intro i ram a ha
    show storeRegs v base (i + 1) fuel (upd ram (base + i) (v i)) a = ram a
    rw [ih (i + 1) (upd ram (base + i) (v i)) a
      (fun d hd => by have := ha (d + 1) (by omega); omega)]
    exact upd_other _ _ _ _ (by have := ha 0 (by omega); omega)

/-- C6 counterexample: with `I = 4094` — a value inside the 12-bit
addressable range — FX33 already writes `ram[I + 2] = ram[4096]`, past
the end of the 4096-byte memory, so the claim that every access of the
memory-touching opcodes stays within bounds for every 16-bit `I` is
false. -/
theorem fx33_access_out_of_bounds :
    ¬ (∀ a ∈ fx33_addrs { initState with I := 4094 }, a < 4096) := by decide

/-- C6 amended: the handlers perform no masking, so their accesses stay
inside the 4096-byte memory only under a per-opcode bound on `I`:
`I + 2 < 4096` for FX33, `I + X < 4096` for FX55/FX65, `I + N ≤ 4096`
for DXYN; the address lists are grounded in the handlers by the frame
facts (FX33 and the FX55 store loop change `ram` only at the listed
addresses). -/
theorem mem_opcode_access_bounds (instr : instruction_t) (s : Chip8) :
    (s.I + 2 < 4096 → ∀ a ∈ fx33_addrs s, a < 4096)
    ∧ (s.I + instr.X < 4096 → ∀ a ∈ fx5x_addrs instr s, a < 4096)
    ∧ (s.I + instr.N ≤ 4096 →
        ∀ a ∈ dxynRowAddrs s.I (s.V instr.Y % 32) 0 instr.N, a < 4096)
    ∧ (instr.NN = 0x33 → ∀ a, a ∉ fx33_addrs s →
        (handle_F_instr instr s).ram a = s.ram a)
    ∧ (∀ a, a ∉ fx5x_addrs instr s →
        storeRegs s.V s.I 0 (instr.X + 1) s.ram a = s.ram a) := by
  refine ⟨?_, ?_, ?_, ?_, ?_⟩
  · intro h a ha
    simp [fx33_addrs] at ha
    rcases ha with h1 | h1 | h1 <;> omega
  · intro h a ha
    simp [fx5x_addrs] at ha
    obtain ⟨i, hi, rfl⟩ := ha
    omega
  · intro h a ha
    obtain ⟨d, hd, rfl⟩ := dxynRowAddrs_mem s.I (s.V instr.Y % 32) instr.N 0 a ha
    omega
  · intro h33 a ha
    simp [fx33_addrs] at ha
    unfold handle_F_instr
    rw [h33]
    show (upd (upd (upd s.ram (s.I + 2) (s.V instr.X % 10))
        (s.I + 1) (s.V instr.X / 10 % 10)) s.I (s.V instr.X / 100 % 10)) a = s.ram a
    rw [upd_other _ _ _ _ ha.2.2, upd_other _ _ _ _ ha.2.1, upd_other _ _ _ _ ha.1]
  · intro a ha
    simp [fx5x_addrs] at ha
    exact storeRegs_frame s.V s.I (instr.X + 1) 0 s.ram a
      (fun d hd => by have := ha d (by omega); omega)

theorem mem_opcode_access_bounds_witness :
    (∀ a ∈ fx33_addrs initState, a < 4096)
    ∧ (∀ a ∈ fx5x_addrs (decode 0xF255) initState, a < 4096)
    ∧ (∀ a ∈ dxynRowAddrs initState.I (initState.V (decode 0xD014).Y % 32) 0
        (decode 0xD014).N, a < 4096)
    ∧ (handle_F_instr (decode 0xF033) initState).ram 100 = initState.ram 100 :=
  ⟨(mem_opcode_access_bounds (decode 0xF033) initState).1 (by decide),
   (mem_opcode_access_bounds (decode 0xF255) initState).2.1 (by decide),
   (mem_opcode_access_bounds (decode 0xD014) initState).2.2.1 (by decide),
   (mem_opcode_access_bounds (decode 0xF033) initState).2.2.2.1 (by decide) 100
     (by decide)⟩

/-! ## C10: opcode FX0A (blocking key wait) -/

theorem cpu_step_family_F (rand : Nat) (s : Chip8)
    (hfam : fetched s >>> 12 = 0xF) :
    cpu_next_instr rand s
      = some (handle_F_instr (decode (fetched s)) { s with PC := (s.PC + 2) % 65536 }) := by
  simp only [cpu_next_instr]
  rw [hfam]

theorem handle_F_0A_cases (instr : instruction_t) (s : Chip8)
    (hNN : instr.NN = 0x0A) :
    handle_F_instr instr s
      = match findPressedKey s.keyboard 0 16 with
        | some i => { s with V := upd s.V instr.X i }
        | none => { s with PC := (s.PC + 65534) % 65536 } := by
  unfold handle_F_instr
  rw [hNN]

theorem findPressedKey_none (kb : Nat → Bool) :
    ∀ fuel i, (∀ d, d < fuel → kb (i + d) = false) →
      findPressedKey kb i fuel = none := by
  intro fuel
  induction fuel with
  | zero => intro i _; rfl
  | succ fuel ih =>
    intro i hk
    have h0 : kb i = false := by
      have := hk 0 (by omega)
      simpa using this
    show (if kb i then some i else findPressedKey kb (i + 1) fuel) = none
    rw [if_neg (by rw [h0]; exact Bool.false_ne_true)]
    refine ih (i + 1) (fun d hd => ?_)
    have := hk (d + 1) (by omega)
    rw [show i + 1 + d = i + (d + 1) by omega]
    exact this

theorem findPressedKey_least (kb : Nat → Bool) :
    ∀ fuel i j, i ≤ j → j < i + fuel → kb j = true →
      (∀ k, i ≤ k → k < j → kb k = false) →
      findPressedKey kb i fuel = some j := by
  intro fuel
  induction fuel with
  | zero => intro i j h1 h2 _ _; omega
  | succ fuel ih =>
    intro i j hij hlt hj hmin
    show (if kb i then some i else findPressedKey kb (i + 1) fuel) = some j
    rcases eq_or_lt_of_le hij with heq | hlt2
    · subst heq
      rw [if_pos hj]
    · rw [if_neg (by rw [hmin i le_rfl hlt2]; exact Bool.false_ne_true)]
      exact ih (i + 1) j (by omega) (by omega) hj (fun k hk1 hk2 => hmin k (by omega) hk2)

/-- C10: when the fetched word is `FX0A` and no key is pressed, the step
returns the machine unchanged (the fetch's `PC += 2` is undone by the
handler's `PC -= 2`), so repeated steps re-execute the instruction with
PC fixed; when some key is pressed, the step stores the lowest-indexed
pressed key into `V[X]` and leaves PC advanced by 2. -/
theorem fx0a_blocking_key_wait (rand : Nat) (s : Chip8)
    (hPC : s.PC < 65536)
    (hfam : fetched s >>> 12 = 0xF)
    (hNN : (decode (fetched s)).NN = 0x0A) :
    ((∀ k, k < 16 → s.keyboard k = false) → cpu_next_instr rand s = some s)
    ∧ (∀ j, j < 16 → s.keyboard j = true → (∀ k, k < j → s.keyboard k = false) →
        optHolds (cpu_next_instr rand s) (fun s2 =>
          s2.V (decode (fetched s)).X = j ∧ s2.PC = (s.PC + 2) % 65536)) := by
  constructor
  · intro hk
    rw [cpu_step_family_F rand s hfam,
      handle_F_0A_cases (decode (fetched s)) { s with PC := (s.PC + 2) % 65536 } hNN]
    rw [show ({ s with PC := (s.PC + 2) % 65536 } : Chip8).keyboard = s.keyboard from rfl]
    rw [findPressedKey_none s.keyboard 16 0
      (fun d hd => by rw [Nat.zero_add]; exact hk d (by omega))]
    show some { s with PC := ((s.PC + 2) % 65536 + 65534) % 65536 } = some s
    rw [show ((s.PC + 2) % 65536 + 65534) % 65536 = s.PC by omega]
  · intro j hj hkj hmin
    rw [cpu_step_family_F rand s hfam,
      handle_F_0A_cases (decode (fetched s)) { s with PC := (s.PC + 2) % 65536 } hNN]
    rw [show ({ s with PC := (s.PC + 2) % 65536 } : Chip8).keyboard = s.keyboard from rfl]
    rw [findPressedKey_least s.keyboard 16 0 j (by omega) (by omega) hkj
      (fun k _ hk2 => hmin k hk2)]
    exact ⟨upd_self _ _ _, rfl⟩

theorem fx0a_blocking_key_wait_witness :
    cpu_next_instr 0
        { initState with ram := upd (upd initState.ram 0x200 0xF3) 0x201 0x0A }
      = some { initState with ram := upd (upd initState.ram 0x200 0xF3) 0x201 0x0A }
    ∧ optHolds (cpu_next_instr 0
        { initState with
            ram := upd (upd initState.ram 0x200 0xF3) 0x201 0x0A
            keyboard := fun k => k == 5 })
        (fun s2 =>
          s2.V (decode (fetched { initState with
              ram := upd (upd initState.ram 0x200 0xF3) 0x201 0x0A
              keyboard := fun k => k == 5 })).X = 5
          ∧ s2.PC = (({ initState with
              ram := upd (upd initState.ram 0x200 0xF3) 0x201 0x0A
              keyboard := fun k => k == 5 } : Chip8).PC + 2) % 65536) :=
  ⟨(fx0a_blocking_key_wait 0
      { initState with ram := upd (upd initState.ram 0x200 0xF3) 0x201 0x0A }
      (by decide) (by decide) (by decide)).1 (fun k _ => rfl),
   (fx0a_blocking_key_wait 0
      { initState with
          ram := upd (upd initState.ram 0x200 0xF3) 0x201 0x0A
          keyboard := fun k => k == 5 }
      (by decide) (by decide) (by decide)).2 5 (by decide) (by decide)
      (fun k hk => beq_eq_false_iff_ne.mpr (by omega))⟩

end Chip8Emu
